import Mathlib

/-!
A verification development for the `scheduling-algorithms` repository.

The repository contains two Python modules, `fcfs_scheduler.py` and
`schedulers/sjf_scheduler_non_preemptive.py`.  Each one defines a `Process`
record (identity, arrival time, burst time, and three optional derived
timing fields), a `Scheduler` class holding `running`, `ready_queue`,
`history` and `total_t`, and average-time calculators.  Exceptions
(`InvalidCompletionTimeError`, `MissingTurnaroundTimeError`,
`MissingWaitingTimeError`, the uncaught `IndexError` from `pop(0)` on an
empty list, and `ZeroDivisionError` from dividing by an empty history) are
modelled with explicit error values in `Except`.  Times are Python `int`s,
modelled as `Int`.
-/

set_option autoImplicit false

/-- Exceptions that can escape the scheduling loop: the module's own
`Exceptions.InvalidCompletionTimeError`, and Python's built-in `IndexError`
raised by `list.pop(0)` on an empty list in the SJF `setup`.  `fuelOut` is
an artifact of the fuel-based embedding of the SJF `while` loop: `SJF.run`
is always invoked with more fuel than the ready queue is long, and
`sjf_run_fuel_sufficient` proves that such a call never returns it. -/
inductive SchedError where
  | invalidCompletionTime : SchedError
  | indexError : SchedError
  | fuelOut : SchedError
  deriving Repr, DecidableEq

/-- Exceptions raised by the average-time calculators: the module's
`MissingTurnaroundTimeError` / `MissingWaitingTimeError` (each carrying the
offending process's id, as the Python exception message does) and Python's
`ZeroDivisionError` from `total / len(self.history)` with an empty history. -/
inductive CalcError where
  | missingTurnaroundTime : String → CalcError
  | missingWaitingTime : String → CalcError
  | zeroDivision : CalcError
  deriving Repr, DecidableEq

/-- The `Process` class: `p_id`, `arrival_t` and `burst_t` are fixed by the
constructor; `completion_t`, `turnaround_t` and `waiting_t` start as `None`. -/
structure Process where
  p_id : String
  arrival_t : Int
  burst_t : Int
  completion_t : Option Int := none
  turnaround_t : Option Int := none
  waiting_t : Option Int := none
  deriving Repr, DecidableEq

/-- `Process.set_completion_t`: raises `InvalidCompletionTimeError` when the
argument is smaller than the burst time, otherwise stores it. -/
def Process.set_completion_t (p : Process) (completion_t : Int) :
    Except SchedError Process :=
  if completion_t < p.burst_t then .error .invalidCompletionTime
  else .ok { p with completion_t := some completion_t }

/-- `Process.set_turnaround_t`: returns unchanged when `completion_t` is
`None`, otherwise stores `completion_t - arrival_t`. -/
def Process.set_turnaround_t (p : Process) : Process :=
  match p.completion_t with
  | none => p
  | some c => { p with turnaround_t := some (c - p.arrival_t) }

/-- `Process.set_waiting_t`: returns unchanged when `turnaround_t` is
`None`, otherwise stores `turnaround_t - burst_t`. -/
def Process.set_waiting_t (p : Process) : Process :=
  match p.turnaround_t with
  | none => p
  | some tr => { p with waiting_t := some (tr - p.burst_t) }

/-- `Scheduler.update_running_process` (identical in both modules): add the
running process's burst time to `total_t`, then set its completion,
turnaround and waiting times in that order.  Returns the new clock together
with the updated process. -/
def update_running_process (total_t : Int) (running : Process) :
    Except SchedError (Int × Process) :=
  match running.set_completion_t (total_t + running.burst_t) with
  | .error e => .error e
  | .ok p => .ok (total_t + running.burst_t, p.set_turnaround_t.set_waiting_t)

/-- The accumulation loop of `Scheduler.calc_avg_turnaround_t`: walk the
history, raising `MissingTurnaroundTimeError` at the first process whose
`turnaround_t` is `None`, otherwise summing the field. -/
def sum_turnaround_t : List Process → Except CalcError Int
  | [] => .ok 0
  | p :: rest =>
    match p.turnaround_t with
    | none => .error (.missingTurnaroundTime p.p_id)
    | some v =>
      match sum_turnaround_t rest with
      | .error e => .error e
      | .ok s => .ok (v + s)

/-- The accumulation loop of `Scheduler.calc_avg_waiting_t`: walk the
history, raising `MissingWaitingTimeError` at the first process whose
`waiting_t` is `None`, otherwise summing the field. -/
def sum_waiting_t : List Process → Except CalcError Int
  | [] => .ok 0
  | p :: rest =>
    match p.waiting_t with
    | none => .error (.missingWaitingTime p.p_id)
    | some v =>
      match sum_waiting_t rest with
      | .error e => .error e
      | .ok s => .ok (v + s)

/-- `Scheduler.calc_avg_turnaround_t`: the summed turnaround times divided
by the length of the history; `ZeroDivisionError` when the history is
empty (Python float division modelled over `Rat`). -/
def calc_avg_turnaround_t (history : List Process) : Except CalcError Rat :=
  match sum_turnaround_t history with
  | .error e => .error e
  | .ok total =>
    if history.length = 0 then .error .zeroDivision
    else .ok ((total : Rat) / (history.length : Rat))

/-- `Scheduler.calc_avg_waiting_t`: the summed waiting times divided by the
length of the history; `ZeroDivisionError` when the history is empty. -/
def calc_avg_waiting_t (history : List Process) : Except CalcError Rat :=
  match sum_waiting_t history with
  | .error e => .error e
  | .ok total =>
    if history.length = 0 then .error .zeroDivision
    else .ok ((total : Rat) / (history.length : Rat))

namespace FCFS

/-- `fcfs_scheduler.Scheduler.add_process`: the first admitted process
becomes `running`; every later one is appended to `ready_queue`.  The
state is the pair `(running, ready_queue)`. -/
def add_process (s : Option Process × List Process) (p : Process) :
    Option Process × List Process :=
  match s with
  | (none, q) => (some p, q)
  | (some r, q) => (some r, q ++ [p])

/-- Admitting a whole list of processes into a freshly constructed FCFS
scheduler, one `add_process` call per element. -/
def addAll (ps : List Process) : Option Process × List Process :=
  ps.foldl add_process (none, [])

/-- The FCFS `Scheduler.execute` loop, one recursive call per iteration of
`while self.running`: update the running process, append it to the history,
then pop the front of the ready queue (or stop when it is empty).  Returns
the final history and `total_t`. -/
def run (total_t : Int) (running : Process) (ready_queue history : List Process) :
    Except SchedError (List Process × Int) :=
  match update_running_process total_t running with
  | .error e => .error e
  | .ok (t, p) =>
    match ready_queue with
    | [] => .ok (history ++ [p], t)
    | q :: rest => run t q rest (history ++ [p])

/-- `fcfs_scheduler.Scheduler.execute` on a scheduler into which `ps` was
admitted in order: if no process is running the loop body never executes. -/
def execute (ps : List Process) : Except SchedError (List Process × Int) :=
  match addAll ps with
  | (none, _) => .ok ([], 0)
  | (some r, queue) => run 0 r queue []

end FCFS

namespace SJF

/-- `sjf_scheduler_non_preemptive.Scheduler.add_process`: every admitted
process is appended to `ready_queue`. -/
def add_process (ready_queue : List Process) (p : Process) : List Process :=
  ready_queue ++ [p]

/-- Admitting a whole list of processes into a freshly constructed SJF
scheduler, one `add_process` call per element. -/
def addAll (ps : List Process) : List Process :=
  ps.foldl add_process []

/-- One step of a stable insertion sort on `arrival_t`: the new element goes
after every element whose arrival time is `≤` its own, so elements with equal
keys keep their original relative order — the behaviour of Python's stable
`list.sort(key=lambda p: p.arrival_t)`. -/
def insertArrival (p : Process) : List Process → List Process
  | [] => [p]
  | q :: rest =>
    if q.arrival_t ≤ p.arrival_t then q :: insertArrival p rest
    else p :: q :: rest

/-- `self.ready_queue.sort(key=lambda p: p.arrival_t)`, a stable sort by
arrival time, realised as a stable insertion sort. -/
def sortArrival (l : List Process) : List Process :=
  l.foldl (fun acc p => insertArrival p acc) []

/-- `Scheduler.setup`: sort the ready queue by arrival time, then pop its
front as the initial running process.  `pop(0)` on an empty list raises
`IndexError`, which nothing catches. -/
def setup (ready_queue : List Process) : Except SchedError (Process × List Process) :=
  match sortArrival ready_queue with
  | [] => .error .indexError
  | r :: rest => .ok (r, rest)

/-- Python's `min(l, key=lambda p: p.burst_t)` on the non-empty list
`a :: l`: a left fold in which a later element replaces the current best
only when its key is strictly smaller, so ties go to the earliest element. -/
def min_burst_first (a : Process) (l : List Process) : Process :=
  l.foldl (fun best p => if p.burst_t < best.burst_t then p else best) a

/-- `Scheduler.set_highest_priority_process`: among the queued processes
whose `arrival_t` is at most `total_t`, take the one with the smallest
`burst_t` (first such on a tie) and remove it from the queue; when the
filter is empty, `min` raises `ValueError`, caught to yield no running
process.  `list.remove` deletes the first occurrence equal to the chosen
process, which is the chosen occurrence itself. -/
def set_highest_priority_process (total_t : Int) (ready_queue : List Process) :
    Option (Process × List Process) :=
  match ready_queue.filter (fun p => decide (p.arrival_t ≤ total_t)) with
  | [] => none
  | a :: rest =>
    some (min_burst_first a rest, ready_queue.erase (min_burst_first a rest))

/-- The SJF `Scheduler.execute` loop, one recursive call per iteration of
`while self.running`: update the running process, append it to the history,
then let `set_highest_priority_process` pick the next running process;
stop when it picks none.  The loop removes one queued process per
iteration, so the `Nat` fuel — `ready_queue.length + 1` at the entry call —
never reaches zero; `sjf_run_fuel_sufficient` proves the `fuelOut` arm
unreachable. -/
def run : Nat → Int → Process → List Process → List Process →
    Except SchedError (List Process × Int)
  | 0, _, _, _, _ => .error .fuelOut
  | fuel + 1, total_t, running, ready_queue, history =>
    match update_running_process total_t running with
    | .error e => .error e
    | .ok (t, p) =>
      match set_highest_priority_process t ready_queue with
      | none => .ok (history ++ [p], t)
      | some (next, queue') => run fuel t next queue' (history ++ [p])

/-- `sjf_scheduler_non_preemptive.Scheduler.execute` on a scheduler into
which `ps` was admitted in order: `setup` first (which raises `IndexError`
on an empty queue), then the loop. -/
def execute (ps : List Process) : Except SchedError (List Process × Int) :=
  match setup (addAll ps) with
  | .error e => .error e
  | .ok (r, queue) => run (queue.length + 1) 0 r queue []

end SJF

/-- The record built by `Process(p_id, arrival_t, burst_t)`: derived timing
fields still unset. -/
def mkP (p_id : String) (arrival_t burst_t : Int) : Process :=
  { p_id := p_id, arrival_t := arrival_t, burst_t := burst_t }

/-- A process whose three derived timing fields have been filled in
consistently: `completion_t` is set and at least `burst_t`, `turnaround_t`
is `completion_t - arrival_t`, and `waiting_t` is `turnaround_t - burst_t`. -/
def Timed (p : Process) : Prop :=
  ∃ c, p.completion_t = some c ∧ p.burst_t ≤ c ∧
    p.turnaround_t = some (c - p.arrival_t) ∧
    p.waiting_t = some ((c - p.arrival_t) - p.burst_t)

/-- Comparison of two processes by their (set) completion times: every
completion time of `p` is at most every completion time of `q`. -/
def complLe (p q : Process) : Prop :=
  ∀ cp cq, p.completion_t = some cp → q.completion_t = some cq → cp ≤ cq

/-- When the clock stays at least as large as the burst time,
`update_running_process` advances the clock by the burst time and fills the
three derived fields of the running process. -/
theorem update_running_process_eq_ok (total_t : Int) (r : Process)
    (hle : r.burst_t ≤ total_t + r.burst_t) :
    update_running_process total_t r =
      .ok (total_t + r.burst_t,
        { r with completion_t := some (total_t + r.burst_t),
                 turnaround_t := some (total_t + r.burst_t - r.arrival_t),
                 waiting_t := some (total_t + r.burst_t - r.arrival_t - r.burst_t) }) := by
  unfold update_running_process Process.set_completion_t
  rw [if_neg (not_lt.mpr hle)]
  simp [Process.set_turnaround_t, Process.set_waiting_t]

/-- Inversion: a successful `update_running_process` call determines the new
clock and the updated process, and certifies the completion-time check. -/
theorem update_running_process_ok_inv {total_t : Int} {r : Process} {t : Int}
    {p : Process} (h : update_running_process total_t r = .ok (t, p)) :
    r.burst_t ≤ total_t + r.burst_t ∧ t = total_t + r.burst_t ∧
      p = { r with completion_t := some (total_t + r.burst_t),
                   turnaround_t := some (total_t + r.burst_t - r.arrival_t),
                   waiting_t := some (total_t + r.burst_t - r.arrival_t - r.burst_t) } := by
  unfold update_running_process Process.set_completion_t at h
  by_cases hlt : total_t + r.burst_t < r.burst_t
  · rw [if_pos hlt] at h
    simp at h
  · rw [if_neg hlt] at h
    simp [Process.set_turnaround_t, Process.set_waiting_t] at h
    exact ⟨not_lt.mp hlt, h.1.symm, h.2.symm⟩

/-- Folding `FCFS.add_process` over a state that already has a running
process only appends to the ready queue. -/
theorem fcfs_foldl_add_process (l : List Process) :
    ∀ (r : Process) (q : List Process),
      List.foldl FCFS.add_process (some r, q) l = (some r, q ++ l) := by
  induction l with
  | nil => intro r q; simp
  | cons p rest ih =>
    intro r q
    rw [List.foldl_cons]
    show List.foldl FCFS.add_process (some r, q ++ [p]) rest = _
    rw [ih]
    simp

/-- Admitting a list into the FCFS scheduler makes its head the running
process and its tail the ready queue. -/
theorem fcfs_addAll_eq (ps : List Process) :
    FCFS.addAll ps = (ps.head?, ps.tail) := by
  cases ps with
  | nil => rfl
  | cons p rest =>
    show List.foldl FCFS.add_process (FCFS.add_process (none, []) p) rest = _
    show List.foldl FCFS.add_process (some p, []) rest = _
    rw [fcfs_foldl_add_process]
    simp

/-- Invariant of the FCFS loop: the ids of the final history are the ids of
the history so far followed by the ids of the running process and the ready
queue, in order. -/
theorem fcfs_run_ids :
    ∀ (queue : List Process) (total_t : Int) (r : Process)
      (hist h : List Process) (T : Int),
      FCFS.run total_t r queue hist = .ok (h, T) →
      h.map Process.p_id =
        hist.map Process.p_id ++ (r :: queue).map Process.p_id := by
  intro queue
  induction queue with
  | nil =>
    intro t r hist h T hrun
    unfold FCFS.run at hrun
    cases hu : update_running_process t r with
    | error e => rw [hu] at hrun; cases hrun
    | ok tp =>
      obtain ⟨t', p'⟩ := tp
      rw [hu] at hrun
      simp at hrun
      obtain ⟨rfl, rfl⟩ := hrun
      obtain ⟨-, -, rfl⟩ := update_running_process_ok_inv hu
      simp
  | cons q rest ih =>
    intro t r hist h T hrun
    unfold FCFS.run at hrun
    cases hu : update_running_process t r with
    | error e => rw [hu] at hrun; cases hrun
    | ok tp =>
      obtain ⟨t', p'⟩ := tp
      rw [hu] at hrun
      have hids := ih t' q (hist ++ [p']) h T hrun
      obtain ⟨-, -, rfl⟩ := update_running_process_ok_inv hu
      simp at hids
      simpa using hids

/-- Invariant of the FCFS loop: every process appended to the history has
its three derived timing fields filled in consistently. -/
theorem fcfs_run_timed :
    ∀ (queue : List Process) (total_t : Int) (r : Process)
      (hist h : List Process) (T : Int),
      FCFS.run total_t r queue hist = .ok (h, T) →
      (∀ p ∈ hist, Timed p) → ∀ p ∈ h, Timed p := by
  intro queue
  induction queue with
  | nil =>
    intro t r hist h T hrun htimed
    unfold FCFS.run at hrun
    cases hu : update_running_process t r with
    | error e => rw [hu] at hrun; cases hrun
    | ok tp =>
      obtain ⟨t', p'⟩ := tp
      rw [hu] at hrun
      simp at hrun
      obtain ⟨rfl, rfl⟩ := hrun
      obtain ⟨hle, -, rfl⟩ := update_running_process_ok_inv hu
      intro p hp
      rcases List.mem_append.mp hp with hmem | hmem
      · exact htimed p hmem
      · rcases List.mem_singleton.mp hmem with rfl
        exact ⟨t + r.burst_t, rfl, hle, rfl, rfl⟩
  | cons q rest ih =>
    intro t r hist h T hrun htimed
    unfold FCFS.run at hrun
    cases hu : update_running_process t r with
    | error e => rw [hu] at hrun; cases hrun
    | ok tp =>
      obtain ⟨t', p'⟩ := tp
      rw [hu] at hrun
      obtain ⟨hle, rfl, rfl⟩ := update_running_process_ok_inv hu
      refine ih _ _ _ _ _ hrun ?_
      intro p hp
      rcases List.mem_append.mp hp with hmem | hmem
      · exact htimed p hmem
      · rcases List.mem_singleton.mp hmem with rfl
        exact ⟨t + r.burst_t, rfl, hle, rfl, rfl⟩

/-- Invariant of the FCFS loop: when every burst time is positive, the
completion times recorded along the history never decrease, and all of them
are bounded by the final clock. -/
theorem fcfs_run_mono :
    ∀ (queue : List Process) (total_t : Int) (r : Process)
      (hist h : List Process) (T : Int),
      FCFS.run total_t r queue hist = .ok (h, T) →
      0 < r.burst_t → (∀ p ∈ queue, 0 < p.burst_t) →
      (∀ p ∈ hist, ∀ c, p.completion_t = some c → c ≤ total_t) →
      hist.Pairwise complLe →
      h.Pairwise complLe ∧ (∀ p ∈ h, ∀ c, p.completion_t = some c → c ≤ T) := by
  intro queue
  induction queue with
  | nil =>
    intro t r hist h T hrun hr _ hbound hpair
    unfold FCFS.run at hrun
    cases hu : update_running_process t r with
    | error e => rw [hu] at hrun; cases hrun
    | ok tp =>
      obtain ⟨t', p'⟩ := tp
      rw [hu] at hrun
      simp at hrun
      obtain ⟨rfl, rfl⟩ := hrun
      obtain ⟨hle, rfl, rfl⟩ := update_running_process_ok_inv hu
      constructor
      · rw [List.pairwise_append]
        refine ⟨hpair, List.pairwise_singleton _ _, ?_⟩
        intro x hx y hy
        rcases List.mem_singleton.mp hy with rfl
        intro cx cy hcx hcy
        simp at hcy
        have := hbound x hx cx hcx
        omega
      · intro p hp c hc
        rcases List.mem_append.mp hp with hmem | hmem
        · have := hbound p hmem c hc
          omega
        · rcases List.mem_singleton.mp hmem with rfl
          simp at hc
          omega
  | cons q rest ih =>
    intro t r hist h T hrun hr hq hbound hpair
    unfold FCFS.run at hrun
    cases hu : update_running_process t r with
    | error e => rw [hu] at hrun; cases hrun
    | ok tp =>
      obtain ⟨t', p'⟩ := tp
      rw [hu] at hrun
      obtain ⟨hle, rfl, rfl⟩ := update_running_process_ok_inv hu
      refine ih _ _ _ _ _ hrun (hq q (List.mem_cons_self q rest))
        (fun p hp => hq p (List.mem_cons_of_mem q hp)) ?_ ?_
      · intro p hp c hc
        rcases List.mem_append.mp hp with hmem | hmem
        · have := hbound p hmem c hc
          omega
        · rcases List.mem_singleton.mp hmem with rfl
          simp at hc
          omega
      · rw [List.pairwise_append]
        refine ⟨hpair, List.pairwise_singleton _ _, ?_⟩
        intro x hx y hy
        rcases List.mem_singleton.mp hy with rfl
        intro cx cy hcx hcy
        simp at hcy
        have := hbound x hx cx hcx
        omega

/-- The process picked by `min_burst_first` is one of the candidates. -/
theorem min_burst_first_mem (l : List Process) (a : Process) :
    SJF.min_burst_first a l ∈ a :: l := by
  induction l generalizing a with
  | nil => simp [SJF.min_burst_first]
  | cons p rest ih =>
    have h := ih (if p.burst_t < a.burst_t then p else a)
    show List.foldl _ a (p :: rest) ∈ _
    rw [List.foldl_cons]
    rcases List.mem_cons.mp h with h' | h'
    · rw [SJF.min_burst_first] at h'
      rw [h']
      by_cases hb : p.burst_t < a.burst_t <;> simp [hb]
    · exact List.mem_cons_of_mem _ (List.mem_cons_of_mem _ h')

/-- The process picked by `min_burst_first` has the least burst time among
the candidates. -/
theorem min_burst_first_le (l : List Process) (a : Process) :
    ∀ r ∈ a :: l, (SJF.min_burst_first a l).burst_t ≤ r.burst_t := by
  induction l generalizing a with
  | nil =>
    intro r hr
    rcases List.mem_singleton.mp hr with rfl
    simp [SJF.min_burst_first]
  | cons p rest ih =>
    intro r hr
    have hstep : SJF.min_burst_first a (p :: rest) =
        SJF.min_burst_first (if p.burst_t < a.burst_t then p else a) rest := rfl
    have hhead :
        (SJF.min_burst_first (if p.burst_t < a.burst_t then p else a) rest).burst_t ≤
          (if p.burst_t < a.burst_t then p else a).burst_t :=
      ih _ _ (List.mem_cons_self _ _)
    rcases List.mem_cons.mp hr with rfl | hr'
    · rw [hstep]
      by_cases hb : p.burst_t < r.burst_t
      · rw [if_pos hb] at hhead ⊢
        omega
      · rw [if_neg hb] at hhead ⊢
        exact hhead
    · rcases List.mem_cons.mp hr' with rfl | hr''
      · rw [hstep]
        by_cases hb : r.burst_t < a.burst_t
        · rw [if_pos hb] at hhead ⊢
          exact hhead
        · rw [if_neg hb] at hhead ⊢
          omega
      · rw [hstep]
        exact ih _ r (List.mem_cons_of_mem _ hr'')

/-- `min_burst_first` picks the first minimum: the candidate list splits at
the picked process, and everything before it has a strictly larger burst
time. -/
theorem min_burst_first_split (l : List Process) (a : Process) :
    ∃ l₁ l₂, a :: l = l₁ ++ SJF.min_burst_first a l :: l₂ ∧
      ∀ r ∈ l₁, (SJF.min_burst_first a l).burst_t < r.burst_t := by
  induction l generalizing a with
  | nil => exact ⟨[], [], rfl, by simp⟩
  | cons p rest ih =>
    have hstep : SJF.min_burst_first a (p :: rest) =
        SJF.min_burst_first (if p.burst_t < a.burst_t then p else a) rest := rfl
    by_cases hb : p.burst_t < a.burst_t
    · obtain ⟨l₁, l₂, heq, hlt⟩ := ih p
      rw [hstep, if_pos hb]
      refine ⟨a :: l₁, l₂, by rw [List.cons_append, ← heq], ?_⟩
      intro r hr
      rcases List.mem_cons.mp hr with rfl | hr'
      · have hle : (SJF.min_burst_first p rest).burst_t ≤ p.burst_t :=
          min_burst_first_le rest p p (List.mem_cons_self _ _)
        omega
      · exact hlt r hr'
    · obtain ⟨l₁, l₂, heq, hlt⟩ := ih a
      rw [hstep, if_neg hb]
      cases l₁ with
      | nil =>
        simp at heq
        refine ⟨[], p :: rest, ?_, by simp⟩
        rw [List.nil_append, ← heq.1]
      | cons a' l₁' =>
        rw [List.cons_append, List.cons.injEq] at heq
        obtain ⟨rfl, hrest⟩ := heq
        refine ⟨a :: p :: l₁', l₂, ?_, ?_⟩
        · rw [List.cons_append, List.cons_append, ← hrest]
        · intro r hr
          have ha : (SJF.min_burst_first a rest).burst_t < a.burst_t :=
            hlt a (List.mem_cons_self _ _)
          rcases List.mem_cons.mp hr with rfl | hr'
          · exact ha
          · rcases List.mem_cons.mp hr' with rfl | hr''
            · omega
            · exact hlt r (List.mem_cons_of_mem _ hr'')

/-- `set_highest_priority_process` yields no process exactly when no queued
process has arrived by the current clock (Python: `min` over an empty
filter raises `ValueError`, caught to set `running = None`). -/
theorem shp_none_iff (t : Int) (q : List Process) :
    SJF.set_highest_priority_process t q = none ↔ ∀ p ∈ q, t < p.arrival_t := by
  unfold SJF.set_highest_priority_process
  cases hf : q.filter (fun p => decide (p.arrival_t ≤ t)) with
  | nil =>
    simp only [hf]
    constructor
    · intro _ p hp
      have := List.filter_eq_nil_iff.mp hf p hp
      simpa using this
    · intro _
      trivial
  | cons a rest =>
    simp only [hf]
    constructor
    · intro h
      cases h
    · intro hall
      have ha : a ∈ q.filter (fun p => decide (p.arrival_t ≤ t)) :=
        hf ▸ List.mem_cons_self a rest
      have hmem := List.mem_filter.mp ha
      have h1 : a.arrival_t ≤ t := by simpa using hmem.2
      have h2 : t < a.arrival_t := hall a hmem.1
      omega

/-- A successful `set_highest_priority_process` call picks an arrived queued
process of least burst time — the first such minimum in queue order — and
removes exactly that process from the queue. -/
theorem shp_some_spec {t : Int} {q : List Process} {c : Process}
    {q' : List Process}
    (h : SJF.set_highest_priority_process t q = some (c, q')) :
    c ∈ q ∧ c.arrival_t ≤ t ∧
    (∀ r ∈ q, r.arrival_t ≤ t → c.burst_t ≤ r.burst_t) ∧
    q' = q.erase c ∧
    ∃ l₁ l₂, q.filter (fun p => decide (p.arrival_t ≤ t)) = l₁ ++ c :: l₂ ∧
      ∀ r ∈ l₁, c.burst_t < r.burst_t := by
  unfold SJF.set_highest_priority_process at h
  cases hf : q.filter (fun p => decide (p.arrival_t ≤ t)) with
  | nil => rw [hf] at h; cases h
  | cons a rest =>
    rw [hf] at h
    simp only [Option.some.injEq, Prod.mk.injEq] at h
    obtain ⟨hc, hq'⟩ := h
    have hcfilter : c ∈ q.filter (fun p => decide (p.arrival_t ≤ t)) := by
      rw [hf, ← hc]
      exact min_burst_first_mem rest a
    have hcboth := List.mem_filter.mp hcfilter
    have hq2 : q' = q.erase c := by rw [← hq', hc]
    refine ⟨hcboth.1, by simpa using hcboth.2, ?_, hq2, ?_⟩
    · intro r hr harr
      have hrfilter : r ∈ q.filter (fun p => decide (p.arrival_t ≤ t)) :=
        List.mem_filter.mpr ⟨hr, by simpa using harr⟩
      rw [hf] at hrfilter
      have := min_burst_first_le rest a r hrfilter
      rw [hc] at this
      exact this
    · obtain ⟨l₁, l₂, heq, hlt⟩ := min_burst_first_split rest a
      refine ⟨l₁, l₂, ?_, ?_⟩
      · rw [← hc]
        exact heq
      · rw [← hc]
        exact hlt

/-- A successful selection strictly shrinks the ready queue. -/
theorem shp_shrink {t : Int} {q : List Process} {c : Process}
    {q' : List Process}
    (h : SJF.set_highest_priority_process t q = some (c, q')) :
    q'.length < q.length := by
  obtain ⟨hmem, -, -, hq', -⟩ := shp_some_spec h
  have hpos : 0 < q.length := List.length_pos.mpr (List.ne_nil_of_mem hmem)
  rw [hq', List.length_erase_of_mem hmem]
  omega

/-- Membership in a stable arrival-time insertion. -/
theorem mem_insertArrival (x p : Process) (l : List Process) :
    x ∈ SJF.insertArrival p l ↔ x = p ∨ x ∈ l := by
  induction l with
  | nil => simp [SJF.insertArrival]
  | cons q rest ih =>
    unfold SJF.insertArrival
    by_cases h : q.arrival_t ≤ p.arrival_t
    · rw [if_pos h]
      simp [ih]
      tauto
    · rw [if_neg h]
      simp

/-- Length of a stable arrival-time insertion. -/
theorem length_insertArrival (p : Process) (l : List Process) :
    (SJF.insertArrival p l).length = l.length + 1 := by
  induction l with
  | nil => rfl
  | cons q rest ih =>
    unfold SJF.insertArrival
    by_cases h : q.arrival_t ≤ p.arrival_t
    · rw [if_pos h]
      simp [ih]
    · rw [if_neg h]
      simp

/-- Membership after folding insertions over a list. -/
theorem mem_sortArrival_fold (l : List Process) :
    ∀ (acc : List Process) (x : Process),
      x ∈ l.foldl (fun a p => SJF.insertArrival p a) acc ↔ x ∈ acc ∨ x ∈ l := by
  induction l with
  | nil => simp
  | cons p rest ih =>
    intro acc x
    rw [List.foldl_cons, ih, mem_insertArrival]
    simp
    tauto

/-- The sorted ready queue has the same members as the admitted list. -/
theorem mem_sortArrival (x : Process) (l : List Process) :
    x ∈ SJF.sortArrival l ↔ x ∈ l := by
  unfold SJF.sortArrival
  rw [mem_sortArrival_fold]
  simp

/-- Length after folding insertions over a list. -/
theorem length_sortArrival_fold (l : List Process) :
    ∀ (acc : List Process),
      (l.foldl (fun a p => SJF.insertArrival p a) acc).length =
        acc.length + l.length := by
  induction l with
  | nil => simp
  | cons p rest ih =>
    intro acc
    rw [List.foldl_cons, ih, length_insertArrival]
    simp [List.length_cons]
    omega

/-- Sorting the ready queue preserves its length. -/
theorem length_sortArrival (l : List Process) :
    (SJF.sortArrival l).length = l.length := by
  unfold SJF.sortArrival
  rw [length_sortArrival_fold]
  simp

/-- Folding `SJF.add_process` appends the admitted list to the queue. -/
theorem sjf_foldl_add_process (l : List Process) :
    ∀ (q : List Process), List.foldl SJF.add_process q l = q ++ l := by
  induction l with
  | nil => simp
  | cons p rest ih =>
    intro q
    rw [List.foldl_cons]
    show List.foldl SJF.add_process (q ++ [p]) rest = _
    rw [ih]
    simp

/-- Admitting a list into the SJF scheduler yields exactly that list as the
ready queue. -/
theorem sjf_addAll_eq (ps : List Process) : SJF.addAll ps = ps := by
  unfold SJF.addAll
  rw [sjf_foldl_add_process]
  simp

/-- The only error `update_running_process` itself can raise is the
completion-time check. -/
theorem update_running_process_err {total_t : Int} {r : Process}
    {e : SchedError} (h : update_running_process total_t r = .error e) :
    e = .invalidCompletionTime := by
  unfold update_running_process Process.set_completion_t at h
  by_cases hlt : total_t + r.burst_t < r.burst_t
  · rw [if_pos hlt] at h
    simp at h
    exact h.symm
  · rw [if_neg hlt] at h
    simp at h

/-- The SJF loop removes one queued process per iteration, so fuel
exceeding the queue length never runs out: the `fuelOut` arm of `SJF.run`
is unreachable from `SJF.execute`, which supplies `queue.length + 1`. -/
theorem sjf_run_fuel_sufficient :
    ∀ (fuel : Nat) (queue : List Process), queue.length < fuel →
      ∀ (total_t : Int) (r : Process) (hist : List Process),
        SJF.run fuel total_t r queue hist ≠ .error .fuelOut := by
  intro fuel
  induction fuel with
  | zero =>
    intro queue hlen
    exact absurd hlen (by omega)
  | succ n ih =>
    intro queue hlen t r hist heq
    simp only [SJF.run] at heq
    split at heq
    · rename_i e hu
      have he := update_running_process_err hu
      subst he
      simp at heq
    · rename_i t' p' hu
      split at heq
      · simp at heq
      · rename_i next queue' hs
        have hshrink := shp_shrink hs
        exact ih queue' (by omega) t' next (hist ++ [p']) heq

/-- Invariant of the SJF loop: the history grows by at most one process per
queued process, plus the one already running. -/
theorem sjf_run_length :
    ∀ (fuel : Nat) (queue : List Process) (total_t : Int) (r : Process)
      (hist h : List Process) (T : Int),
      SJF.run fuel total_t r queue hist = .ok (h, T) →
      h.length ≤ hist.length + 1 + queue.length := by
  intro fuel
  induction fuel with
  | zero =>
    intro queue t r hist h T hrun
    simp [SJF.run] at hrun
  | succ n ih =>
    intro queue t r hist h T hrun
    simp only [SJF.run] at hrun
    split at hrun
    · cases hrun
    · rename_i t' p' hu
      split at hrun
      · simp at hrun
        obtain ⟨rfl, rfl⟩ := hrun
        simp
      · rename_i next queue' hs
        have hlen := ih queue' t' next (hist ++ [p']) h T hrun
        have hshrink := shp_shrink hs
        simp at hlen
        omega

/-- Invariant of the SJF loop: every process appended to the history has
its three derived timing fields filled in consistently. -/
theorem sjf_run_timed :
    ∀ (fuel : Nat) (queue : List Process) (total_t : Int) (r : Process)
      (hist h : List Process) (T : Int),
      SJF.run fuel total_t r queue hist = .ok (h, T) →
      (∀ p ∈ hist, Timed p) → ∀ p ∈ h, Timed p := by
  intro fuel
  induction fuel with
  | zero =>
    intro queue t r hist h T hrun
    simp [SJF.run] at hrun
  | succ n ih =>
    intro queue t r hist h T hrun htimed
    simp only [SJF.run] at hrun
    split at hrun
    · cases hrun
    · rename_i t' p' hu
      obtain ⟨hle, rfl, rfl⟩ := update_running_process_ok_inv hu
      split at hrun
      · simp at hrun
        obtain ⟨rfl, rfl⟩ := hrun
        intro p hp
        rcases List.mem_append.mp hp with hmem | hmem
        · exact htimed p hmem
        · rcases List.mem_singleton.mp hmem with rfl
          exact ⟨t + r.burst_t, rfl, hle, rfl, rfl⟩
      · rename_i next queue' hs
        refine ih queue' _ next _ h T hrun ?_
        intro p hp
        rcases List.mem_append.mp hp with hmem | hmem
        · exact htimed p hmem
        · rcases List.mem_singleton.mp hmem with rfl
          exact ⟨t + r.burst_t, rfl, hle, rfl, rfl⟩

/-- Invariant of the SJF loop: when every burst time is positive, the
completion times recorded along the history never decrease, and all of
them are bounded by the final clock. -/
theorem sjf_run_mono :
    ∀ (fuel : Nat) (queue : List Process) (total_t : Int) (r : Process)
      (hist h : List Process) (T : Int),
      SJF.run fuel total_t r queue hist = .ok (h, T) →
      0 < r.burst_t → (∀ p ∈ queue, 0 < p.burst_t) →
      (∀ p ∈ hist, ∀ c, p.completion_t = some c → c ≤ total_t) →
      hist.Pairwise complLe →
      h.Pairwise complLe ∧ (∀ p ∈ h, ∀ c, p.completion_t = some c → c ≤ T) := by
  intro fuel
  induction fuel with
  | zero =>
    intro queue t r hist h T hrun
    simp [SJF.run] at hrun
  | succ n ih =>
    intro queue t r hist h T hrun hr hq hbound hpair
    simp only [SJF.run] at hrun
    split at hrun
    · cases hrun
    · rename_i t' p' hu
      obtain ⟨hle, rfl, rfl⟩ := update_running_process_ok_inv hu
      split at hrun
      · simp at hrun
        obtain ⟨rfl, rfl⟩ := hrun
        constructor
        · rw [List.pairwise_append]
          refine ⟨hpair, List.pairwise_singleton _ _, ?_⟩
          intro x hx y hy
          rcases List.mem_singleton.mp hy with rfl
          intro cx cy hcx hcy
          simp at hcy
          have := hbound x hx cx hcx
          omega
        · intro p hp c hc
          rcases List.mem_append.mp hp with hmem | hmem
          · have := hbound p hmem c hc
            omega
          · rcases List.mem_singleton.mp hmem with rfl
            simp at hc
            omega
      · rename_i next queue' hs
        obtain ⟨hnextmem, -, -, hq', -⟩ := shp_some_spec hs
        refine ih queue' _ next _ h T hrun (hq next hnextmem) ?_ ?_ ?_
        · intro p hp
          rw [hq'] at hp
          exact hq p (List.mem_of_mem_erase hp)
        · intro p hp c hc
          rcases List.mem_append.mp hp with hmem | hmem
          · have := hbound p hmem c hc
            omega
          · rcases List.mem_singleton.mp hmem with rfl
            simp at hc
            omega
        · rw [List.pairwise_append]
          refine ⟨hpair, List.pairwise_singleton _ _, ?_⟩
          intro x hx y hy
          rcases List.mem_singleton.mp hy with rfl
          intro cx cy hcx hcy
          simp at hcy
          have := hbound x hx cx hcx
          omega

/-- When every waiting time is set, the accumulation loop returns their
sum. -/
theorem sum_waiting_t_ok (h : List Process)
    (hall : ∀ p ∈ h, p.waiting_t ≠ none) :
    sum_waiting_t h = .ok (h.filterMap Process.waiting_t).sum := by
  induction h with
  | nil => rfl
  | cons p rest ih =>
    obtain ⟨v, hv⟩ := Option.ne_none_iff_exists'.mp
      (hall p (List.mem_cons_self p rest))
    unfold sum_waiting_t
    rw [hv, ih (fun q hq => hall q (List.mem_cons_of_mem p hq))]
    simp [List.filterMap_cons, hv]

/-- The accumulation loop raises `MissingWaitingTimeError` for the first
process whose waiting time is unset. -/
theorem sum_waiting_t_err (h : List Process) (q : Process)
    (hfind : h.find? (fun p => p.waiting_t.isNone) = some q) :
    sum_waiting_t h = .error (.missingWaitingTime q.p_id) := by
  induction h with
  | nil => cases hfind
  | cons p rest ih =>
    by_cases hp : p.waiting_t = none
    · rw [List.find?_cons_of_pos _ (by simp [hp])] at hfind
      obtain rfl : p = q := by
        cases hfind
        rfl
      unfold sum_waiting_t
      rw [hp]
    · rw [List.find?_cons_of_neg _ (by simpa using hp)] at hfind
      obtain ⟨v, hv⟩ := Option.ne_none_iff_exists'.mp hp
      unfold sum_waiting_t
      rw [hv, ih hfind]

/-- The accumulation loop fails with a missing-waiting-time error exactly
when some process in the history has no waiting time set. -/
theorem sum_waiting_t_err_iff (h : List Process) :
    (∃ p ∈ h, p.waiting_t = none) ↔
      ∃ i, sum_waiting_t h = .error (.missingWaitingTime i) := by
  constructor
  · intro hex
    have hsome : (h.find? (fun p => p.waiting_t.isNone)).isSome := by
      rw [List.find?_isSome]
      obtain ⟨p, hp, hnone⟩ := hex
      exact ⟨p, hp, by simp [hnone]⟩
    obtain ⟨q, hq⟩ := Option.isSome_iff_exists.mp hsome
    exact ⟨q.p_id, sum_waiting_t_err h q hq⟩
  · intro hex
    induction h with
    | nil =>
      obtain ⟨i, hi⟩ := hex
      cases hi
    | cons p rest ih =>
      obtain ⟨i, hi⟩ := hex
      by_cases hp : p.waiting_t = none
      · exact ⟨p, List.mem_cons_self p rest, hp⟩
      · obtain ⟨v, hv⟩ := Option.ne_none_iff_exists'.mp hp
        unfold sum_waiting_t at hi
        rw [hv] at hi
        cases hrest : sum_waiting_t rest with
        | error e =>
          rw [hrest] at hi
          simp at hi
          obtain ⟨q, hq, hqnone⟩ := ih ⟨i, by rw [hrest, hi]⟩
          exact ⟨q, List.mem_cons_of_mem p hq, hqnone⟩
        | ok s =>
          rw [hrest] at hi
          cases hi

/-- When every turnaround time is set, the accumulation loop returns their
sum. -/
theorem sum_turnaround_t_ok (h : List Process)
    (hall : ∀ p ∈ h, p.turnaround_t ≠ none) :
    sum_turnaround_t h = .ok (h.filterMap Process.turnaround_t).sum := by
  induction h with
  | nil => rfl
  | cons p rest ih =>
    obtain ⟨v, hv⟩ := Option.ne_none_iff_exists'.mp
      (hall p (List.mem_cons_self p rest))
    unfold sum_turnaround_t
    rw [hv, ih (fun q hq => hall q (List.mem_cons_of_mem p hq))]
    simp [List.filterMap_cons, hv]

/-- The accumulation loop raises `MissingTurnaroundTimeError` for the first
process whose turnaround time is unset. -/
theorem sum_turnaround_t_err (h : List Process) (q : Process)
    (hfind : h.find? (fun p => p.turnaround_t.isNone) = some q) :
    sum_turnaround_t h = .error (.missingTurnaroundTime q.p_id) := by
  induction h with
  | nil => cases hfind
  | cons p rest ih =>
    by_cases hp : p.turnaround_t = none
    · rw [List.find?_cons_of_pos _ (by simp [hp])] at hfind
      obtain rfl : p = q := by
        cases hfind
        rfl
      unfold sum_turnaround_t
      rw [hp]
    · rw [List.find?_cons_of_neg _ (by simpa using hp)] at hfind
      obtain ⟨v, hv⟩ := Option.ne_none_iff_exists'.mp hp
      unfold sum_turnaround_t
      rw [hv, ih hfind]

/-- The accumulation loop fails with a missing-turnaround-time error exactly
when some process in the history has no turnaround time set. -/
theorem sum_turnaround_t_err_iff (h : List Process) :
    (∃ p ∈ h, p.turnaround_t = none) ↔
      ∃ i, sum_turnaround_t h = .error (.missingTurnaroundTime i) := by
  constructor
  · intro hex
    have hsome : (h.find? (fun p => p.turnaround_t.isNone)).isSome := by
      rw [List.find?_isSome]
      obtain ⟨p, hp, hnone⟩ := hex
      exact ⟨p, hp, by simp [hnone]⟩
    obtain ⟨q, hq⟩ := Option.isSome_iff_exists.mp hsome
    exact ⟨q.p_id, sum_turnaround_t_err h q hq⟩
  · intro hex
    induction h with
    | nil =>
      obtain ⟨i, hi⟩ := hex
      cases hi
    | cons p rest ih =>
      obtain ⟨i, hi⟩ := hex
      by_cases hp : p.turnaround_t = none
      · exact ⟨p, List.mem_cons_self p rest, hp⟩
      · obtain ⟨v, hv⟩ := Option.ne_none_iff_exists'.mp hp
        unfold sum_turnaround_t at hi
        rw [hv] at hi
        cases hrest : sum_turnaround_t rest with
        | error e =>
          rw [hrest] at hi
          simp at hi
          obtain ⟨q, hq, hqnone⟩ := ih ⟨i, by rw [hrest, hi]⟩
          exact ⟨q, List.mem_cons_of_mem p hq, hqnone⟩
        | ok s =>
          rw [hrest] at hi
          cases hi

/-- An error in the accumulation loop propagates out of
`calc_avg_waiting_t`. -/
theorem calc_avg_waiting_t_of_sum_err {h : List Process} {e : CalcError}
    (hs : sum_waiting_t h = .error e) : calc_avg_waiting_t h = .error e := by
  unfold calc_avg_waiting_t
  rw [hs]

/-- An error in the accumulation loop propagates out of
`calc_avg_turnaround_t`. -/
theorem calc_avg_turnaround_t_of_sum_err {h : List Process} {e : CalcError}
    (hs : sum_turnaround_t h = .error e) :
    calc_avg_turnaround_t h = .error e := by
  unfold calc_avg_turnaround_t
  rw [hs]

/-- A successful accumulation reduces `calc_avg_waiting_t` to the final
guarded division. -/
theorem calc_avg_waiting_t_of_sum_ok {h : List Process} {s : Int}
    (hs : sum_waiting_t h = .ok s) :
    calc_avg_waiting_t h =
      if h.length = 0 then .error .zeroDivision
      else .ok ((s : Rat) / (h.length : Rat)) := by
  unfold calc_avg_waiting_t
  rw [hs]

/-- A successful accumulation reduces `calc_avg_turnaround_t` to the final
guarded division. -/
theorem calc_avg_turnaround_t_of_sum_ok {h : List Process} {s : Int}
    (hs : sum_turnaround_t h = .ok s) :
    calc_avg_turnaround_t h =
      if h.length = 0 then .error .zeroDivision
      else .ok ((s : Rat) / (h.length : Rat)) := by
  unfold calc_avg_turnaround_t
  rw [hs]

/-- C8: `Process.set_completion_t t` raises `InvalidCompletionTimeError`
exactly when `t < burst_t` (in which case the process is left unchanged —
in this functional embedding no updated record is produced), and otherwise
returns the process with `completion_t := t` and every other field
untouched. -/
theorem set_completion_t_spec :
    ∀ (p : Process) (t : Int),
      (t < p.burst_t →
        p.set_completion_t t = .error .invalidCompletionTime) ∧
      (p.burst_t ≤ t →
        p.set_completion_t t = .ok { p with completion_t := some t }) := by
  intro p t
  constructor
  · intro h
    unfold Process.set_completion_t
    rw [if_pos h]
  · intro h
    unfold Process.set_completion_t
    rw [if_neg (not_lt.mpr h)]

/-- Witness for C8 at burst time 5: setting completion time 3 fails, and
setting completion time 7 succeeds leaving the other fields unchanged. -/
theorem set_completion_t_spec_witness :
    (mkP "A" 0 5).set_completion_t 3 = .error .invalidCompletionTime ∧
    (mkP "A" 0 5).set_completion_t 7 =
      .ok { mkP "A" 0 5 with completion_t := some 7 } :=
  ⟨(set_completion_t_spec (mkP "A" 0 5) 3).1 (by decide),
   (set_completion_t_spec (mkP "A" 0 5) 7).2 (by decide)⟩

/-- C9: each average calculator fails with its missing-field error (naming
the first offending process's id) exactly when some process in the history
lacks that field; when every process has the field it returns the sum
divided by the history length; and on an empty history it fails with a
division-by-zero error. -/
theorem calc_avg_spec :
    ∀ (h : List Process),
      ((∃ p ∈ h, p.waiting_t = none) ↔
        ∃ i, calc_avg_waiting_t h = .error (.missingWaitingTime i)) ∧
      (∀ q, h.find? (fun p => p.waiting_t.isNone) = some q →
        calc_avg_waiting_t h = .error (.missingWaitingTime q.p_id)) ∧
      ((∀ p ∈ h, p.waiting_t ≠ none) → h ≠ [] →
        calc_avg_waiting_t h =
          .ok (((h.filterMap Process.waiting_t).sum : Rat) / (h.length : Rat))) ∧
      (h = [] → calc_avg_waiting_t h = .error .zeroDivision) ∧
      ((∃ p ∈ h, p.turnaround_t = none) ↔
        ∃ i, calc_avg_turnaround_t h = .error (.missingTurnaroundTime i)) ∧
      (∀ q, h.find? (fun p => p.turnaround_t.isNone) = some q →
        calc_avg_turnaround_t h = .error (.missingTurnaroundTime q.p_id)) ∧
      ((∀ p ∈ h, p.turnaround_t ≠ none) → h ≠ [] →
        calc_avg_turnaround_t h =
          .ok (((h.filterMap Process.turnaround_t).sum : Rat) / (h.length : Rat))) ∧
      (h = [] → calc_avg_turnaround_t h = .error .zeroDivision) := by
  intro h
  refine ⟨?_, ?_, ?_, ?_, ?_, ?_, ?_, ?_⟩
  · constructor
    · intro hex
      obtain ⟨i, hi⟩ := (sum_waiting_t_err_iff h).mp hex
      exact ⟨i, calc_avg_waiting_t_of_sum_err hi⟩
    · intro ⟨i, hi⟩
      cases hs : sum_waiting_t h with
      | error e =>
        rw [calc_avg_waiting_t_of_sum_err hs] at hi
        simp at hi
        exact (sum_waiting_t_err_iff h).mpr ⟨i, by rw [hs, hi]⟩
      | ok s =>
        rw [calc_avg_waiting_t_of_sum_ok hs] at hi
        by_cases hl : h.length = 0
        · rw [if_pos hl] at hi
          cases hi
        · rw [if_neg hl] at hi
          cases hi
  · intro q hq
    exact calc_avg_waiting_t_of_sum_err (sum_waiting_t_err h q hq)
  · intro hall hne
    have hl : ¬h.length = 0 := by
      have := List.length_pos.mpr hne
      omega
    rw [calc_avg_waiting_t_of_sum_ok (sum_waiting_t_ok h hall), if_neg hl]
  · intro hnil
    subst hnil
    rfl
  · constructor
    · intro hex
      obtain ⟨i, hi⟩ := (sum_turnaround_t_err_iff h).mp hex
      exact ⟨i, calc_avg_turnaround_t_of_sum_err hi⟩
    · intro ⟨i, hi⟩
      cases hs : sum_turnaround_t h with
      | error e =>
        rw [calc_avg_turnaround_t_of_sum_err hs] at hi
        simp at hi
        exact (sum_turnaround_t_err_iff h).mpr ⟨i, by rw [hs, hi]⟩
      | ok s =>
        rw [calc_avg_turnaround_t_of_sum_ok hs] at hi
        by_cases hl : h.length = 0
        · rw [if_pos hl] at hi
          cases hi
        · rw [if_neg hl] at hi
          cases hi
  · intro q hq
    exact calc_avg_turnaround_t_of_sum_err (sum_turnaround_t_err h q hq)
  · intro hall hne
    have hl : ¬h.length = 0 := by
      have := List.length_pos.mpr hne
      omega
    rw [calc_avg_turnaround_t_of_sum_ok (sum_turnaround_t_ok h hall), if_neg hl]
  · intro hnil
    subst hnil
    rfl

/-- Witness for C9: on a two-process history with waiting times 0 and 4 the
average-waiting calculator returns 2, and on a history whose only process
lacks a turnaround time the average-turnaround calculator raises the
missing-field error naming that process. -/
theorem calc_avg_spec_witness :
    calc_avg_waiting_t
      [{ p_id := "P0", arrival_t := 0, burst_t := 5, completion_t := some 5,
         turnaround_t := some 5, waiting_t := some 0 },
       { p_id := "P1", arrival_t := 1, burst_t := 3, completion_t := some 8,
         turnaround_t := some 7, waiting_t := some 4 }] = .ok (2 : Rat) ∧
    calc_avg_turnaround_t [mkP "P9" 2 4] =
      .error (.missingTurnaroundTime "P9") := by
  constructor
  · have h := (calc_avg_spec
      [{ p_id := "P0", arrival_t := 0, burst_t := 5, completion_t := some 5,
         turnaround_t := some 5, waiting_t := some 0 },
       { p_id := "P1", arrival_t := 1, burst_t := 3, completion_t := some 8,
         turnaround_t := some 7, waiting_t := some 4 }]).2.2.1
      (by decide) (by decide)
    rw [h]
    simp [List.filterMap_cons]
    norm_num
  · exact (calc_avg_spec [mkP "P9" 2 4]).2.2.2.2.2.1 (mkP "P9" 2 4) (by decide)

/-- C1: the SJF selection rule.  `set_highest_priority_process` returns no
process exactly when no queued process has arrived by the clock; a returned
process is an arrived member of the queue with minimum burst time among all
arrived queued processes, it is the first such minimum in the queue's
current (filtered) order, and the new queue is the old one with exactly
that process removed. -/
theorem sjf_selection_rule :
    ∀ (t : Int) (q : List Process),
      (SJF.set_highest_priority_process t q = none ↔
        ∀ p ∈ q, t < p.arrival_t) ∧
      ∀ c q', SJF.set_highest_priority_process t q = some (c, q') →
        c ∈ q ∧ c.arrival_t ≤ t ∧
        (∀ r ∈ q, r.arrival_t ≤ t → c.burst_t ≤ r.burst_t) ∧
        q' = q.erase c ∧
        ∃ l₁ l₂,
          q.filter (fun p => decide (p.arrival_t ≤ t)) = l₁ ++ c :: l₂ ∧
          ∀ r ∈ l₁, c.burst_t < r.burst_t :=
  fun t q => ⟨shp_none_iff t q, fun _ _ h => shp_some_spec h⟩

/-- Witness for C1 at clock 3 on the queue [A(0,5), B(1,2), C(9,1)]: the
selection picks B — arrived, minimal burst among the arrived — and removes
it, leaving [A, C]. -/
theorem sjf_selection_rule_witness :
    mkP "B" 1 2 ∈ [mkP "A" 0 5, mkP "B" 1 2, mkP "C" 9 1] ∧
    (mkP "B" 1 2).arrival_t ≤ 3 ∧
    (∀ r ∈ [mkP "A" 0 5, mkP "B" 1 2, mkP "C" 9 1],
      r.arrival_t ≤ 3 → (mkP "B" 1 2).burst_t ≤ r.burst_t) ∧
    [mkP "A" 0 5, mkP "C" 9 1] =
      [mkP "A" 0 5, mkP "B" 1 2, mkP "C" 9 1].erase (mkP "B" 1 2) ∧
    ∃ l₁ l₂,
      [mkP "A" 0 5, mkP "B" 1 2, mkP "C" 9 1].filter
        (fun p => decide (p.arrival_t ≤ 3)) = l₁ ++ mkP "B" 1 2 :: l₂ ∧
      ∀ r ∈ l₁, (mkP "B" 1 2).burst_t < r.burst_t :=
  (sjf_selection_rule 3 [mkP "A" 0 5, mkP "B" 1 2, mkP "C" 9 1]).2
    (mkP "B" 1 2) [mkP "A" 0 5, mkP "C" 9 1] (by rfl)

/-- C2: FCFS executes in admission order — after a successful `execute()`
the ids of the history equal the ids of the admitted processes, in order,
for every admitted list (whatever its arrival times). -/
theorem fcfs_history_is_admission_order :
    ∀ (ps h : List Process) (T : Int),
      FCFS.execute ps = .ok (h, T) →
      h.map Process.p_id = ps.map Process.p_id := by
  intro ps h T hexec
  cases ps with
  | nil =>
    simp [FCFS.execute, FCFS.addAll] at hexec
    obtain ⟨rfl, rfl⟩ := hexec
    rfl
  | cons p rest =>
    unfold FCFS.execute at hexec
    rw [fcfs_addAll_eq] at hexec
    simp at hexec
    simpa using fcfs_run_ids rest 0 p [] h T hexec

/-- C3: after a successful `execute()` of either engine, every process in
the history has `completion_t ≥ burst_t`,
`turnaround_t = completion_t - arrival_t` and
`waiting_t = turnaround_t - burst_t`, all three fields set. -/
theorem history_timing_fields :
    ∀ (ps h : List Process) (T : Int),
      (FCFS.execute ps = .ok (h, T) → ∀ p ∈ h, Timed p) ∧
      (SJF.execute ps = .ok (h, T) → ∀ p ∈ h, Timed p) := by
  intro ps h T
  constructor
  · intro hexec
    cases ps with
    | nil =>
      simp [FCFS.execute, FCFS.addAll] at hexec
      obtain ⟨rfl, rfl⟩ := hexec
      simp
    | cons p rest =>
      unfold FCFS.execute at hexec
      rw [fcfs_addAll_eq] at hexec
      simp at hexec
      exact fcfs_run_timed rest 0 p [] h T hexec (by simp)
  · intro hexec
    unfold SJF.execute at hexec
    rw [sjf_addAll_eq] at hexec
    cases hsort : SJF.sortArrival ps with
    | nil =>
      unfold SJF.setup at hexec
      rw [hsort] at hexec
      simp at hexec
    | cons r rest =>
      unfold SJF.setup at hexec
      rw [hsort] at hexec
      simp at hexec
      exact sjf_run_timed _ rest 0 r [] h T hexec (by simp)

/-- Witness for C3: the completed records of a one-process FCFS run and a
one-process SJF run both carry consistent timing fields. -/
theorem history_timing_fields_witness :
    Timed { p_id := "P0", arrival_t := 0, burst_t := 5, completion_t := some 5,
            turnaround_t := some 5, waiting_t := some 0 } ∧
    Timed { p_id := "Q0", arrival_t := 1, burst_t := 4, completion_t := some 4,
            turnaround_t := some 3, waiting_t := some (-1) } :=
  ⟨(history_timing_fields [mkP "P0" 0 5]
      [{ p_id := "P0", arrival_t := 0, burst_t := 5, completion_t := some 5,
         turnaround_t := some 5, waiting_t := some 0 }] 5).1 (by rfl) _
      (List.mem_singleton.mpr rfl),
   (history_timing_fields [mkP "Q0" 1 4]
      [{ p_id := "Q0", arrival_t := 1, burst_t := 4, completion_t := some 4,
         turnaround_t := some 3, waiting_t := some (-1) }] 4).2 (by rfl) _
      (List.mem_singleton.mpr rfl)⟩

/-- C4 (amended): after a successful `execute()`, the FCFS history has
exactly one entry per admitted process, while the SJF history has at most
one entry per admitted process — it can be shorter, because a queued
process that has not arrived when the queue is polled is dropped. -/
theorem history_length_bounds :
    ∀ (ps h : List Process) (T : Int),
      (FCFS.execute ps = .ok (h, T) → h.length = ps.length) ∧
      (SJF.execute ps = .ok (h, T) → h.length ≤ ps.length) := by
  intro ps h T
  constructor
  · intro hexec
    cases ps with
    | nil =>
      simp [FCFS.execute, FCFS.addAll] at hexec
      obtain ⟨rfl, rfl⟩ := hexec
      rfl
    | cons p rest =>
      unfold FCFS.execute at hexec
      rw [fcfs_addAll_eq] at hexec
      simp at hexec
      have hids := congrArg List.length (fcfs_run_ids rest 0 p [] h T hexec)
      simpa using hids
  · intro hexec
    unfold SJF.execute at hexec
    rw [sjf_addAll_eq] at hexec
    cases hsort : SJF.sortArrival ps with
    | nil =>
      unfold SJF.setup at hexec
      rw [hsort] at hexec
      simp at hexec
    | cons r rest =>
      unfold SJF.setup at hexec
      rw [hsort] at hexec
      simp at hexec
      have hl := sjf_run_length _ rest 0 r [] h T hexec
      have hslen := length_sortArrival ps
      rw [hsort] at hslen
      simp at hl hslen
      omega

/-- Counterexample for C4 as stated: the SJF engine admits two processes
but completes only one — P2 (arrival 5) has not arrived when P1 finishes
at time 1, so it is dropped and the history has length 1, not 2. -/
theorem sjf_drops_unarrived_cex :
    (SJF.execute [mkP "P1" 0 1, mkP "P2" 5 1]).toOption.map
      (fun r => r.1.length) = some 1 ∧ (1 : Nat) ≠ 2 :=
  ⟨rfl, by decide⟩

/-- Witness for C4 (amended) on concrete runs of both engines. -/
theorem history_length_bounds_witness :
    ([{ p_id := "P0", arrival_t := 0, burst_t := 5, completion_t := some 5,
        turnaround_t := some 5, waiting_t := some 0 },
      { p_id := "P1", arrival_t := 1, burst_t := 3, completion_t := some 8,
        turnaround_t := some 7, waiting_t := some 4 }] : List Process).length =
      ([mkP "P0" 0 5, mkP "P1" 1 3] : List Process).length ∧
    ([{ p_id := "P1", arrival_t := 0, burst_t := 1, completion_t := some 1,
        turnaround_t := some 1, waiting_t := some 0 }] : List Process).length ≤
      ([mkP "P1" 0 1, mkP "P2" 5 1] : List Process).length :=
  ⟨(history_length_bounds [mkP "P0" 0 5, mkP "P1" 1 3] _ 8).1 (by rfl),
   (history_length_bounds [mkP "P1" 0 1, mkP "P2" 5 1] _ 1).2 (by rfl)⟩

/-- C7: with positive burst times, a successful `execute()` of either
engine yields a history whose completion times never decrease in execution
order (the simulated clock only ever advances by burst times). -/
theorem completion_times_monotone :
    ∀ (ps h : List Process) (T : Int), (∀ p ∈ ps, 0 < p.burst_t) →
      (FCFS.execute ps = .ok (h, T) → h.Pairwise complLe) ∧
      (SJF.execute ps = .ok (h, T) → h.Pairwise complLe) := by
  intro ps h T hpos
  constructor
  · intro hexec
    cases ps with
    | nil =>
      simp [FCFS.execute, FCFS.addAll] at hexec
      obtain ⟨rfl, rfl⟩ := hexec
      exact List.Pairwise.nil
    | cons p rest =>
      unfold FCFS.execute at hexec
      rw [fcfs_addAll_eq] at hexec
      simp at hexec
      exact (fcfs_run_mono rest 0 p [] h T hexec
        (hpos p (List.mem_cons_self p rest))
        (fun q hq => hpos q (List.mem_cons_of_mem p hq))
        (by simp) List.Pairwise.nil).1
  · intro hexec
    unfold SJF.execute at hexec
    rw [sjf_addAll_eq] at hexec
    cases hsort : SJF.sortArrival ps with
    | nil =>
      unfold SJF.setup at hexec
      rw [hsort] at hexec
      simp at hexec
    | cons r rest =>
      unfold SJF.setup at hexec
      rw [hsort] at hexec
      simp at hexec
      have hmem : ∀ p ∈ r :: rest, p ∈ ps := by
        intro p hp
        exact (mem_sortArrival p ps).mp (hsort ▸ hp)
      exact (sjf_run_mono _ rest 0 r [] h T hexec
        (hpos r (hmem r (List.mem_cons_self r rest)))
        (fun q hq => hpos q (hmem q (List.mem_cons_of_mem r hq)))
        (by simp) List.Pairwise.nil).1

/-- Witness for C2 on an admission whose arrival times are out of order:
the history ids still equal the admission ids. -/
theorem fcfs_history_is_admission_order_witness :
    ([{ p_id := "P0", arrival_t := 7, burst_t := 2, completion_t := some 2,
        turnaround_t := some (-5), waiting_t := some (-7) },
      { p_id := "P1", arrival_t := 0, burst_t := 3, completion_t := some 5,
        turnaround_t := some 5, waiting_t := some 2 }].map Process.p_id) =
      ([mkP "P0" 7 2, mkP "P1" 0 3].map Process.p_id) :=
  fcfs_history_is_admission_order [mkP "P0" 7 2, mkP "P1" 0 3] _ 5 (by rfl)

/-- Witness for C7 on concrete runs of both engines. -/
theorem completion_times_monotone_witness :
    List.Pairwise complLe
      [{ p_id := "P0", arrival_t := 0, burst_t := 5, completion_t := some 5,
         turnaround_t := some 5, waiting_t := some 0 },
       { p_id := "P1", arrival_t := 1, burst_t := 3, completion_t := some 8,
         turnaround_t := some 7, waiting_t := some 4 }] ∧
    List.Pairwise complLe
      [{ p_id := "A", arrival_t := 0, burst_t := 3, completion_t := some 3,
         turnaround_t := some 3, waiting_t := some 0 },
       { p_id := "B", arrival_t := 0, burst_t := 1, completion_t := some 4,
         turnaround_t := some 4, waiting_t := some 3 }] :=
  ⟨(completion_times_monotone [mkP "P0" 0 5, mkP "P1" 1 3] _ 8 (by decide)).1
      (by rfl),
   (completion_times_monotone [mkP "A" 0 3, mkP "B" 0 1] _ 4 (by decide)).2
      (by rfl)⟩

/-- Counterexample for C5 as stated: with no admitted process the SJF
`execute()` does not complete — `setup` pops from the empty ready queue and
the `IndexError` propagates. -/
theorem sjf_empty_execute_cex : (SJF.execute []).toOption = none := rfl

/-- C5 (amended): with no admitted process, the FCFS `execute()` returns
normally with an empty history, while the SJF `execute()` fails with the
`IndexError` raised by `ready_queue.pop(0)` in `setup`. -/
theorem empty_admission_behaviour :
    FCFS.execute [] = .ok ([], 0) ∧ SJF.execute [] = .error .indexError :=
  ⟨rfl, rfl⟩

/-- Counterexample for C6 as stated: the SJF scenario does not produce the
run order P4, P3, P1, P5, P2 — at time 3 both P3 (arrival 1, burst 8) and
P1 (arrival 2, burst 6) have arrived, so P1's smaller burst wins. -/
theorem sjf_scenario_cex :
    (SJF.execute [mkP "P1" 2 6, mkP "P2" 5 2, mkP "P3" 1 8, mkP "P4" 0 3,
      mkP "P5" 4 4]).toOption.map (fun r => r.1.map Process.p_id) ≠
    some ["P4", "P3", "P1", "P5", "P2"] := by
  decide

/-- C6 (amended): admitting P1(2,6), P2(5,2), P3(1,8), P4(0,3), P5(4,4) in
that order, the SJF engine runs them in the order P4, P1, P2, P5, P3. -/
theorem sjf_scenario_run_order :
    (SJF.execute [mkP "P1" 2 6, mkP "P2" 5 2, mkP "P3" 1 8, mkP "P4" 0 3,
      mkP "P5" 4 4]).toOption.map (fun r => r.1.map Process.p_id) =
    some ["P4", "P1", "P2", "P5", "P3"] := rfl

/-- C10: neither engine waits for a process's arrival time.  A single
admitted process with positive arrival time runs immediately in both
engines: its completion time is just its burst time, its turnaround time is
`burst - arrival`, and its waiting time is `-arrival`, which is negative. -/
theorem no_arrival_gating :
    ∀ (i : String) (a b : Int), 0 < a →
      FCFS.execute [mkP i a b] =
        .ok ([{ p_id := i, arrival_t := a, burst_t := b,
                completion_t := some b, turnaround_t := some (b - a),
                waiting_t := some (b - a - b) }], b) ∧
      SJF.execute [mkP i a b] =
        .ok ([{ p_id := i, arrival_t := a, burst_t := b,
                completion_t := some b, turnaround_t := some (b - a),
                waiting_t := some (b - a - b) }], b) ∧
      b - a - b < 0 := by
  intro i a b ha
  refine ⟨?_, ?_, by omega⟩
  · show FCFS.run 0 (mkP i a b) [] [] = _
    unfold FCFS.run
    rw [update_running_process_eq_ok 0 (mkP i a b) (by simp [mkP])]
    simp [mkP]
  · show SJF.run 1 0 (mkP i a b) [] [] = _
    simp only [SJF.run]
    rw [update_running_process_eq_ok 0 (mkP i a b) (by simp [mkP])]
    simp [SJF.set_highest_priority_process, mkP]

/-- Witness for C10: a single process arriving at time 5 with burst 3 runs
at once in both engines; its waiting time is -5 and its turnaround time
3 - 5 is negative too. -/
theorem no_arrival_gating_witness :
    FCFS.execute [mkP "P0" 5 3] =
      .ok ([{ p_id := "P0", arrival_t := 5, burst_t := 3,
              completion_t := some 3, turnaround_t := some (3 - 5),
              waiting_t := some (3 - 5 - 3) }], 3) ∧
    SJF.execute [mkP "P0" 5 3] =
      .ok ([{ p_id := "P0", arrival_t := 5, burst_t := 3,
              completion_t := some 3, turnaround_t := some (3 - 5),
              waiting_t := some (3 - 5 - 3) }], 3) ∧
    (3 - 5 - 3 : Int) < 0 ∧ (3 - 5 : Int) < 0 :=
  ⟨(no_arrival_gating "P0" 5 3 (by decide)).1,
   (no_arrival_gating "P0" 5 3 (by decide)).2.1,
   (no_arrival_gating "P0" 5 3 (by decide)).2.2, by decide⟩
